import Mathlib

/-!
# PKCS#7 streaming padding and unpadding

Shallow embedding of `cryptography/hazmat/primitives/padding.py`
(classes `PKCS7`, `_PKCS7PaddingContext`, `_PKCS7UnpaddingContext`).

Byte strings are modelled as `List Nat` (each element a byte value).
Python exceptions are modelled by `Except Err`; the mutable contexts are
modelled by explicit state passing, with the Python sentinel
`self._buffer = None` (set by `finalize`) modelled as `Option.none`.
Python's floor division, which raises `ZeroDivisionError` on a zero
divisor, is modelled by `pyFloorDiv`.
-/

/-- The errors the module can raise.  `invalidParameter` and
`invalidPadding` and `useAfterFinalize` are the source's `ValueError`s
(distinguished here by their message), `encodingError` is its
`TypeError` for text input, and `zeroDivision` is Python's
`ZeroDivisionError`. -/
inductive Err where
  | invalidParameter : Err
  | useAfterFinalize : Err
  | encodingError : Err
  | invalidPadding : Err
  | zeroDivision : Err
  deriving DecidableEq, Repr

deriving instance DecidableEq for Except

/-- Python `a // b` on naturals: raises `ZeroDivisionError` when `b = 0`. -/
def pyFloorDiv (a b : Nat) : Except Err Nat :=
  if b = 0 then .error .zeroDivision else .ok (a / b)

/-- Python slice `l[-p:]` for `p ≥ 0`.  Note `l[-0:]` is `l[0:] = l`
(Python has no negative zero integer), while for `p ≥ 1` the start index
is clamped at 0. -/
def pySliceFrom (l : List Nat) (p : Nat) : List Nat :=
  if p = 0 then l else l.drop (l.length - p)

/-- Python slice `l[:-p]` for `p ≥ 0`.  Note `l[:-0]` is `l[:0] = []`,
while for `p ≥ 1` the end index is clamped at 0. -/
def pySliceTo (l : List Nat) (p : Nat) : List Nat :=
  if p = 0 then [] else l.take (l.length - p)

/-- The accumulation loop of `_PKCS7UnpaddingContext.finalize`:
`mismatch = 0; for b in window: mismatch |= b ^ pad_size`.  It visits
every byte of the window and never short-circuits. -/
def mismatchFold (pad_size : Nat) (window : List Nat) : Nat :=
  window.foldl (fun mismatch b => mismatch ||| (b ^^^ pad_size)) 0

/-- Class `PKCS7`: the validated scheme configuration. -/
structure PKCS7 where
  block_size : Nat
  deriving DecidableEq, Repr

/-- `PKCS7.__init__`: takes the block size in bits (an arbitrary Python
integer, hence `Int` here), validates `0 <= block_size < 256` and
`block_size % 8 == 0`, raising `ValueError` otherwise. -/
def PKCS7.make (block_size : Int) : Except Err PKCS7 :=
  if ¬ (0 ≤ block_size ∧ block_size < 256) then .error .invalidParameter
  else if block_size % 8 ≠ 0 then .error .invalidParameter
  else .ok ⟨block_size.toNat⟩

/-- Class `_PKCS7PaddingContext` (source name has a leading underscore).
`buffer = none` models the Python `self._buffer = None` sentinel set at
finalization. -/
structure PKCS7PaddingContext where
  block_size : Nat
  buffer : Option (List Nat)
  deriving DecidableEq, Repr

/-- `PKCS7.padder()`: a fresh padding context with an empty buffer. -/
def PKCS7.padder (s : PKCS7) : PKCS7PaddingContext :=
  ⟨s.block_size, some []⟩

/-- `_PKCS7PaddingContext.update`.  Appends `data` to the buffer, emits
`finished_blocks = len(buffer) // (block_size // 8)` whole blocks and
retains the remainder.  The Python floor division raises
`ZeroDivisionError` when `block_size // 8 == 0`.  (The source's
`isinstance(data, six.text_type)` check cannot fire here since inputs
are byte lists by type.) -/
def PKCS7PaddingContext.update (ctx : PKCS7PaddingContext) (data : List Nat) :
    Except Err (List Nat × PKCS7PaddingContext) :=
  match ctx.buffer with
  | none => .error .useAfterFinalize
  | some buf =>
    let buf := buf ++ data
    do
      let finished_blocks ← pyFloorDiv buf.length (ctx.block_size / 8)
      let result := buf.take (finished_blocks * (ctx.block_size / 8))
      .ok (result, ⟨ctx.block_size, some (buf.drop (finished_blocks * (ctx.block_size / 8)))⟩)

/-- `_PKCS7PaddingContext.finalize`.  Emits the retained buffer followed
by `pad_size` copies of the byte `pad_size`, where
`pad_size = block_size // 8 - len(buffer)` (`Nat` subtraction: on the
states the claims concern, `len(buffer) < block_size // 8`). -/
def PKCS7PaddingContext.finalize (ctx : PKCS7PaddingContext) :
    Except Err (List Nat × PKCS7PaddingContext) :=
  match ctx.buffer with
  | none => .error .useAfterFinalize
  | some buf =>
    let pad_size := ctx.block_size / 8 - buf.length
    .ok (buf ++ List.replicate pad_size pad_size, ⟨ctx.block_size, none⟩)

/-- Class `_PKCS7UnpaddingContext` (source name has a leading underscore). -/
structure PKCS7UnpaddingContext where
  block_size : Nat
  buffer : Option (List Nat)
  deriving DecidableEq, Repr

/-- `PKCS7.unpadder()`: a fresh unpadding context with an empty buffer. -/
def PKCS7.unpadder (s : PKCS7) : PKCS7UnpaddingContext :=
  ⟨s.block_size, some []⟩

/-- `_PKCS7UnpaddingContext.update`.  Like the padder's `update` but with
`finished_blocks = max(len(buffer) // (block_size // 8) - 1, 0)`: it
always withholds at least one full block. -/
def PKCS7UnpaddingContext.update (ctx : PKCS7UnpaddingContext) (data : List Nat) :
    Except Err (List Nat × PKCS7UnpaddingContext) :=
  match ctx.buffer with
  | none => .error .useAfterFinalize
  | some buf =>
    let buf := buf ++ data
    do
      let q ← pyFloorDiv buf.length (ctx.block_size / 8)
      let finished_blocks := max (q - 1) 0
      let result := buf.take (finished_blocks * (ctx.block_size / 8))
      .ok (result, ⟨ctx.block_size, some (buf.drop (finished_blocks * (ctx.block_size / 8)))⟩)

/-- `_PKCS7UnpaddingContext.finalize`.  Rejects an empty buffer, reads
`pad_size = six.indexbytes(buffer, -1)` (the last byte, modelled as
`getD (length - 1) 0` on the guaranteed-nonempty buffer), rejects
`pad_size > block_size // 8`, accumulates the or-of-xor mismatch over
the window `buffer[-pad_size:]` and rejects a nonzero accumulator, and
finally returns `buffer[:-pad_size]`. -/
def PKCS7UnpaddingContext.finalize (ctx : PKCS7UnpaddingContext) :
    Except Err (List Nat × PKCS7UnpaddingContext) :=
  match ctx.buffer with
  | none => .error .useAfterFinalize
  | some buf =>
    if buf.isEmpty then .error .invalidPadding
    else
      let pad_size := buf.getD (buf.length - 1) 0
      if pad_size > ctx.block_size / 8 then .error .invalidPadding
      else
        let mismatch := mismatchFold pad_size (pySliceFrom buf pad_size)
        if mismatch ≠ 0 then .error .invalidPadding
        else .ok (pySliceTo buf pad_size, ⟨ctx.block_size, none⟩)

/-- Feed a list of chunks to a padding context by successive `update`
calls, concatenating the emitted outputs. -/
def padUpdates (ctx : PKCS7PaddingContext) (chunks : List (List Nat)) :
    Except Err (List Nat × PKCS7PaddingContext) :=
  match chunks with
  | [] => .ok ([], ctx)
  | c :: cs =>
    (ctx.update c).bind fun r =>
      (padUpdates r.2 cs).bind fun s => .ok (r.1 ++ s.1, s.2)

/-- Feed a list of chunks to an unpadding context by successive `update`
calls, concatenating the emitted outputs. -/
def unpadUpdates (ctx : PKCS7UnpaddingContext) (chunks : List (List Nat)) :
    Except Err (List Nat × PKCS7UnpaddingContext) :=
  match chunks with
  | [] => .ok ([], ctx)
  | c :: cs =>
    (ctx.update c).bind fun r =>
      (unpadUpdates r.2 cs).bind fun s => .ok (r.1 ++ s.1, s.2)

/-- The full padding pipeline: fresh padder, the given `update` calls,
then `finalize`, with all emitted chunks concatenated. -/
def padRun (bits : Nat) (chunks : List (List Nat)) : Except Err (List Nat) :=
  (padUpdates (PKCS7.padder ⟨bits⟩) chunks).bind fun r =>
    (r.2.finalize).bind fun s => .ok (r.1 ++ s.1)

/-- The full unpadding pipeline: fresh unpadder, the given `update`
calls, then `finalize`, with all emitted chunks concatenated. -/
def unpadRun (bits : Nat) (chunks : List (List Nat)) : Except Err (List Nat) :=
  (unpadUpdates (PKCS7.unpadder ⟨bits⟩) chunks).bind fun r =>
    (r.2.finalize).bind fun s => .ok (r.1 ++ s.1)

/-- The block sizes the spec calls valid: a multiple of 8 with
`8 ≤ bits ≤ 248`. -/
def ValidBits (bits : Nat) : Prop :=
  bits % 8 = 0 ∧ 8 ≤ bits ∧ bits ≤ 248

instance : DecidablePred ValidBits := fun _ => by
  unfold ValidBits; infer_instance

/-- Flip bit `k` of the byte at position `i`. -/
def flipBit (l : List Nat) (i k : Nat) : List Nat :=
  l.set i ((l.getD i 0) ^^^ (2 ^ k))

/-- Length of the buffer the unpadder retains after having absorbed `n`
bytes in total (for block size `bs ≥ 1`): everything while less than one
block, and between one and two blocks afterwards. -/
def uResid (bs n : Nat) : Nat :=
  if n < bs then n else bs + n % bs

-- sanity checks on concrete inputs
example : padRun 64 [[1, 2, 3]] = .ok [1, 2, 3, 5, 5, 5, 5, 5] := by decide
example : unpadRun 64 [[1, 2, 3, 5, 5], [5, 5, 5]] = .ok [1, 2, 3] := by decide
example : padRun 128 [] = .ok (List.replicate 16 16) := by decide
example : unpadRun 128 [[]] = .error .invalidPadding := by decide
example : unpadRun 128 [[1]] = .ok [] := by decide
example : unpadRun 128 [[1, 0]] = .error .invalidPadding := by decide
example : unpadRun 64 [[0, 0, 0, 0, 0, 0, 0, 0]] = .ok [] := by decide

/-! ## Arithmetic and fold lemmas -/

lemma natOr_eq_zero {a b : Nat} : a ||| b = 0 ↔ a = 0 ∧ b = 0 := by
  constructor
  · intro h
    refine ⟨Nat.eq_of_testBit_eq fun i => ?_, Nat.eq_of_testBit_eq fun i => ?_⟩ <;>
    · have h' := congrArg (fun x => Nat.testBit x i) h
      simp only [Nat.testBit_or, Nat.zero_testBit, Bool.or_eq_false_iff] at h'
      simp [h'.1, h'.2]
  · rintro ⟨rfl, rfl⟩; rfl

lemma mismatchFold_acc (p : Nat) :
    ∀ (l : List Nat) (acc : Nat),
      l.foldl (fun mismatch b => mismatch ||| (b ^^^ p)) acc = 0 ↔
        acc = 0 ∧ ∀ b ∈ l, b = p := by
  intro l
  induction l with
  | nil => simp
  | cons x t ih =>
    intro acc
    rw [List.foldl_cons, ih]
    rw [natOr_eq_zero, Nat.xor_eq_zero]
    constructor
    · rintro ⟨⟨h1, h2⟩, h3⟩
      exact ⟨h1, by simpa using ⟨h2, h3⟩⟩
    · rintro ⟨h1, h2⟩
      simp at h2
      exact ⟨⟨h1, h2.1⟩, h2.2⟩

/-- The source's accumulation loop reports zero mismatch exactly when
every byte of the window equals `pad_size`. -/
lemma mismatchFold_eq_zero {p : Nat} {l : List Nat} :
    mismatchFold p l = 0 ↔ ∀ b ∈ l, b = p := by
  rw [mismatchFold, mismatchFold_acc]
  simp

lemma uResid_le {bs n : Nat} : uResid bs n ≤ n := by
  unfold uResid
  split
  · exact Nat.le_refl n
  · rename_i h
    have h' : bs ≤ n := Nat.le_of_not_lt h
    have h1 : n % bs = (n - bs) % bs := Nat.mod_eq_sub_mod h'
    have h2 : (n - bs) % bs ≤ n - bs := Nat.mod_le _ _
    omega

lemma uResid_lt {bs n : Nat} (hbs : bs ≠ 0) : uResid bs n < 2 * bs := by
  unfold uResid
  have hm : n % bs < bs := Nat.mod_lt _ (Nat.pos_of_ne_zero hbs)
  split <;> omega

lemma uResid_comp {bs : Nat} (hbs : bs ≠ 0) (a c : Nat) :
    uResid bs (uResid bs a + c) = uResid bs (a + c) := by
  unfold uResid
  by_cases h1 : a < bs
  · rw [if_pos h1]
  · rw [if_neg h1]
    have h1' : bs ≤ a := Nat.le_of_not_lt h1
    have hm : a % bs < bs := Nat.mod_lt _ (Nat.pos_of_ne_zero (by omega))
    rw [if_neg (by omega : ¬ bs + a % bs + c < bs), if_neg (by omega : ¬ a + c < bs)]
    have he : bs + a % bs + c = a % bs + c + bs := by omega
    rw [he, Nat.add_mod_right, Nat.mod_add_mod]

lemma uResid_of_lt_two_mul {bs n : Nat} (h : n < 2 * bs) :
    uResid bs n = n := by
  unfold uResid
  split
  · rfl
  · rename_i h1
    have h1' : bs ≤ n := Nat.le_of_not_lt h1
    rw [Nat.mod_eq_sub_mod h1', Nat.mod_eq_of_lt (by omega)]
    omega

/-! ## Characterization of the streaming `update` runs -/

lemma padUpdate_some (bits : Nat) (hbs : bits / 8 ≠ 0) (buf data : List Nat) :
    PKCS7PaddingContext.update ⟨bits, some buf⟩ data =
      .ok ((buf ++ data).take ((buf ++ data).length / (bits / 8) * (bits / 8)),
           ⟨bits, some ((buf ++ data).drop ((buf ++ data).length / (bits / 8) * (bits / 8)))⟩) := by
  simp only [PKCS7PaddingContext.update, pyFloorDiv, if_neg hbs]
  rfl

lemma unpadUpdate_some (bits : Nat) (hbs : bits / 8 ≠ 0) (buf data : List Nat) :
    PKCS7UnpaddingContext.update ⟨bits, some buf⟩ data =
      .ok ((buf ++ data).take (((buf ++ data).length / (bits / 8) - 1) * (bits / 8)),
           ⟨bits, some ((buf ++ data).drop (((buf ++ data).length / (bits / 8) - 1) * (bits / 8)))⟩) := by
  simp only [PKCS7UnpaddingContext.update, pyFloorDiv, if_neg hbs, Nat.max_zero]
  rfl

lemma exceptBind_ok {α β : Type} (a : α) (f : α → Except Err β) :
    (Except.ok a : Except Err α).bind f = f a := rfl

lemma exceptBind_error {α β : Type} (e : Err) (f : α → Except Err β) :
    (Except.error e : Except Err α).bind f = .error e := rfl

/-- The bytes a padder that has absorbed `total` in all has emitted. -/
def padEmit (bs : Nat) (total : List Nat) : List Nat :=
  total.take (total.length - total.length % bs)

/-- The bytes a padder that has absorbed `total` in all still retains. -/
def padKeep (bs : Nat) (total : List Nat) : List Nat :=
  total.drop (total.length - total.length % bs)

/-- The bytes an unpadder that has absorbed `total` in all has emitted. -/
def unpadEmit (bs : Nat) (total : List Nat) : List Nat :=
  total.take (total.length - uResid bs total.length)

/-- The bytes an unpadder that has absorbed `total` in all still retains. -/
def unpadKeep (bs : Nat) (total : List Nat) : List Nat :=
  total.drop (total.length - uResid bs total.length)

lemma padUpdates_sound (bits : Nat) (hbs : bits / 8 ≠ 0) :
    ∀ (chunks : List (List Nat)) (buf : List Nat), buf.length < bits / 8 →
      padUpdates ⟨bits, some buf⟩ chunks =
        .ok (padEmit (bits / 8) (buf ++ chunks.flatten),
             ⟨bits, some (padKeep (bits / 8) (buf ++ chunks.flatten))⟩) := by
  intro chunks
  induction chunks with
  | nil =>
    intro buf hbuf
    simp [padUpdates, padEmit, padKeep, Nat.mod_eq_of_lt hbuf]
  | cons c cs ih =>
    intro buf hbuf
    rw [padUpdates, padUpdate_some bits hbs buf c, exceptBind_ok]
    have hdm := Nat.div_add_mod (buf ++ c).length (bits / 8)
    rw [Nat.mul_comm] at hdm
    have hmul : (buf ++ c).length / (bits / 8) * (bits / 8) =
        (buf ++ c).length - (buf ++ c).length % (bits / 8) :=
      Nat.eq_sub_of_add_eq hdm
    have hmodlt : (buf ++ c).length % (bits / 8) < bits / 8 :=
      Nat.mod_lt _ (Nat.pos_of_ne_zero hbs)
    rw [hmul]
    have hkeep : ((buf ++ c).drop ((buf ++ c).length - (buf ++ c).length % (bits / 8))).length
        < bits / 8 := by
      rw [List.length_drop]; omega
    rw [ih _ hkeep, exceptBind_ok]
    have hT : buf ++ (c :: cs).flatten = (buf ++ c) ++ cs.flatten := by simp
    rw [hT]
    set bs := bits / 8 with hbsdef
    set n := (buf ++ c).length with hn
    set r := n % bs with hr
    set K := n - r with hK
    have hrle : r ≤ n := by rw [hr]; exact Nat.mod_le _ _
    have hK_le : K ≤ n := by omega
    set T := (buf ++ c) ++ cs.flatten with hT2
    have hdropT : T.drop K = (buf ++ c).drop K ++ cs.flatten := by
      rw [hT2]; exact List.drop_append_of_le_length (hn ▸ hK_le)
    have htakeT : T.take K = (buf ++ c).take K := by
      rw [hT2]; exact List.take_append_of_le_length (hn ▸ hK_le)
    rw [← hdropT, ← htakeT]
    have hN : T.length = n + cs.flatten.length := by
      rw [hT2, List.length_append, ← hn]
    have hL' : (T.drop K).length = r + cs.flatten.length := by
      rw [List.length_drop, hN]; omega
    simp only [padEmit, padKeep, hL', hN]
    rw [← List.take_add, List.drop_drop]
    have harith : K + (r + cs.flatten.length - (r + cs.flatten.length) % bs) =
        n + cs.flatten.length - (n + cs.flatten.length) % bs := by
      have h1 : (n + cs.flatten.length) % bs = (r + cs.flatten.length) % bs := by
        rw [hr, Nat.mod_add_mod]
      have h2 : (r + cs.flatten.length) % bs ≤ r + cs.flatten.length := Nat.mod_le _ _
      omega
    rw [harith]

lemma unpadUpdates_sound (bits : Nat) (hbs : bits / 8 ≠ 0) :
    ∀ (chunks : List (List Nat)) (buf : List Nat), buf.length < 2 * (bits / 8) →
      unpadUpdates ⟨bits, some buf⟩ chunks =
        .ok (unpadEmit (bits / 8) (buf ++ chunks.flatten),
             ⟨bits, some (unpadKeep (bits / 8) (buf ++ chunks.flatten))⟩) := by
  intro chunks
  induction chunks with
  | nil =>
    intro buf hbuf
    simp [unpadUpdates, unpadEmit, unpadKeep, uResid_of_lt_two_mul hbuf]
  | cons c cs ih =>
    intro buf hbuf
    rw [unpadUpdates, unpadUpdate_some bits hbs buf c, exceptBind_ok]
    have hdm := Nat.div_add_mod (buf ++ c).length (bits / 8)
    rw [Nat.mul_comm] at hdm
    have hmodlt : (buf ++ c).length % (bits / 8) < bits / 8 :=
      Nat.mod_lt _ (Nat.pos_of_ne_zero hbs)
    have hmul : ((buf ++ c).length / (bits / 8) - 1) * (bits / 8) =
        (buf ++ c).length - uResid (bits / 8) (buf ++ c).length := by
      rw [Nat.sub_mul, one_mul]
      rcases Nat.lt_or_ge (buf ++ c).length (bits / 8) with hlt | hge
      · rw [Nat.div_eq_of_lt hlt]
        unfold uResid
        rw [if_pos hlt, Nat.zero_mul]
        omega
      · unfold uResid
        rw [if_neg (Nat.not_lt.2 hge)]
        omega
    rw [hmul]
    have huRle : uResid (bits / 8) (buf ++ c).length ≤ (buf ++ c).length := uResid_le
    have huRlt : uResid (bits / 8) (buf ++ c).length < 2 * (bits / 8) := uResid_lt hbs
    have hkeep :
        ((buf ++ c).drop ((buf ++ c).length - uResid (bits / 8) (buf ++ c).length)).length
          < 2 * (bits / 8) := by
      rw [List.length_drop]; omega
    rw [ih _ hkeep, exceptBind_ok]
    have hT : buf ++ (c :: cs).flatten = (buf ++ c) ++ cs.flatten := by simp
    rw [hT]
    set bs := bits / 8 with hbsdef
    set n := (buf ++ c).length with hn
    set U := uResid bs n with hU
    set K := n - U with hK
    have hK_le : K ≤ n := by omega
    set T := (buf ++ c) ++ cs.flatten with hT2
    have hdropT : T.drop K = (buf ++ c).drop K ++ cs.flatten := by
      rw [hT2]; exact List.drop_append_of_le_length (hn ▸ hK_le)
    have htakeT : T.take K = (buf ++ c).take K := by
      rw [hT2]; exact List.take_append_of_le_length (hn ▸ hK_le)
    rw [← hdropT, ← htakeT]
    have hN : T.length = n + cs.flatten.length := by
      rw [hT2, List.length_append, ← hn]
    have hL' : (T.drop K).length = U + cs.flatten.length := by
      rw [List.length_drop, hN]; omega
    simp only [unpadEmit, unpadKeep, hL', hN]
    rw [← List.take_add, List.drop_drop]
    have h1 : uResid bs (U + cs.flatten.length) = uResid bs (n + cs.flatten.length) := by
      rw [hU]; exact uResid_comp hbs n cs.flatten.length
    have h2 : uResid bs (U + cs.flatten.length) ≤ U + cs.flatten.length := uResid_le
    have harith : K + (U + cs.flatten.length - uResid bs (U + cs.flatten.length)) =
        n + cs.flatten.length - uResid bs (n + cs.flatten.length) := by
      omega
    rw [harith]

lemma padRun_eq (bits : Nat) (hbs : bits / 8 ≠ 0) (chunks : List (List Nat)) :
    padRun bits chunks =
      .ok (chunks.flatten ++
           List.replicate (bits / 8 - chunks.flatten.length % (bits / 8))
             (bits / 8 - chunks.flatten.length % (bits / 8))) := by
  have h0 : ([] : List Nat).length < bits / 8 := by
    simpa using Nat.pos_of_ne_zero hbs
  rw [padRun, show PKCS7.padder ⟨bits⟩ = ⟨bits, some []⟩ from rfl,
      padUpdates_sound bits hbs chunks [] h0, exceptBind_ok]
  simp only [List.nil_append]
  simp only [PKCS7PaddingContext.finalize, exceptBind_ok]
  have hpk : (padKeep (bits / 8) chunks.flatten).length =
      chunks.flatten.length % (bits / 8) := by
    rw [padKeep, List.length_drop]
    have := Nat.mod_le chunks.flatten.length (bits / 8)
    omega
  rw [hpk, ← List.append_assoc, padEmit, padKeep, List.take_append_drop]

lemma unpadFinalize_eval (bits : Nat) (buf : List Nat) (hne : buf ≠ []) :
    PKCS7UnpaddingContext.finalize ⟨bits, some buf⟩ =
      (if buf.getD (buf.length - 1) 0 > bits / 8 then .error .invalidPadding
       else if mismatchFold (buf.getD (buf.length - 1) 0)
                (pySliceFrom buf (buf.getD (buf.length - 1) 0)) ≠ 0 then
         .error .invalidPadding
       else .ok (pySliceTo buf (buf.getD (buf.length - 1) 0), ⟨bits, none⟩)) := by
  rw [PKCS7UnpaddingContext.finalize]
  simp [List.isEmpty_iff, hne]

lemma getD_drop (l : List Nat) (a b : Nat) :
    (l.drop a).getD b 0 = l.getD (a + b) 0 := by
  rw [List.getD_eq_getElem?_getD, List.getD_eq_getElem?_getD, List.getElem?_drop]

lemma getD_pad {m : List Nat} {p j v : Nat} (h : j < p) :
    (m ++ List.replicate p v).getD (m.length + j) 0 = v := by
  rw [List.getD_eq_getElem?_getD,
      List.getElem?_append_right (Nat.le_add_right _ _)]
  simp [List.getElem?_replicate, h]

lemma padded_len_mod {bs L : Nat} (hbs : bs ≠ 0) :
    (L + (bs - L % bs)) % bs = 0 ∧ bs ≤ L + (bs - L % bs) := by
  have hdm := Nat.div_add_mod L bs
  have hm : L % bs < bs := Nat.mod_lt _ (Nat.pos_of_ne_zero hbs)
  constructor
  · have h1 : L + (bs - L % bs) = bs * (L / bs) + bs := by omega
    rw [h1, ← Nat.mul_succ, Nat.mul_mod_right]
  · omega

/-- Iteration-count model of the validation loop in
`_PKCS7UnpaddingContext.finalize`: the same or-of-xor accumulation,
paired with a counter that advances once per loop iteration. -/
def mismatchInstr (pad_size : Nat) (window : List Nat) : Nat × Nat :=
  window.foldl (fun acc b => (acc.1 ||| (b ^^^ pad_size), acc.2 + 1)) (0, 0)

lemma mismatchInstr_spec (p : Nat) (w : List Nat) :
    mismatchInstr p w = (mismatchFold p w, w.length) := by
  suffices h : ∀ (l : List Nat) (a k : Nat),
      l.foldl (fun acc b => (acc.1 ||| (b ^^^ p), acc.2 + 1)) (a, k) =
        (l.foldl (fun mismatch b => mismatch ||| (b ^^^ p)) a, k + l.length) by
    simpa [mismatchInstr, mismatchFold] using h w 0 0
  intro l
  induction l with
  | nil => intro a k; simp
  | cons x t ih =>
    intro a k
    rw [List.foldl_cons, ih, List.foldl_cons]
    rw [List.length_cons]
    congr 1
    omega

/-- Running a full unpadding pipeline whose total input has a length
that is a positive multiple of the block size: the engine retains
exactly the last block for `finalize` and has emitted everything
before it. -/
lemma unpadRun_full (bits : Nat) (hbs : bits / 8 ≠ 0) (chunks : List (List Nat))
    (T : List Nat) (hT : chunks.flatten = T)
    (hmod : T.length % (bits / 8) = 0) (hge : bits / 8 ≤ T.length) :
    unpadRun bits chunks =
      (PKCS7UnpaddingContext.finalize
          ⟨bits, some (T.drop (T.length - bits / 8))⟩).bind
        (fun s => .ok (T.take (T.length - bits / 8) ++ s.1)) := by
  rw [unpadRun, show PKCS7.unpadder ⟨bits⟩ = ⟨bits, some []⟩ from rfl,
      unpadUpdates_sound bits hbs chunks []
        (by simpa using Nat.pos_of_ne_zero hbs),
      exceptBind_ok]
  simp only [List.nil_append, hT]
  have hU : uResid (bits / 8) T.length = bits / 8 := by
    unfold uResid
    rw [if_neg (by omega), hmod, Nat.add_zero]
  simp only [unpadEmit, unpadKeep, hU]

/-! ## Finalized-state lemmas -/

lemma padUpdate_finalized {ctx : PKCS7PaddingContext} (h : ctx.buffer = none)
    (data : List Nat) : ctx.update data = .error .useAfterFinalize := by
  obtain ⟨b, buf⟩ := ctx
  cases buf with
  | none => rfl
  | some l => simp at h

lemma padFinalize_finalized {ctx : PKCS7PaddingContext} (h : ctx.buffer = none) :
    ctx.finalize = .error .useAfterFinalize := by
  obtain ⟨b, buf⟩ := ctx
  cases buf with
  | none => rfl
  | some l => simp at h

lemma unpadUpdate_finalized {ctx : PKCS7UnpaddingContext} (h : ctx.buffer = none)
    (data : List Nat) : ctx.update data = .error .useAfterFinalize := by
  obtain ⟨b, buf⟩ := ctx
  cases buf with
  | none => rfl
  | some l => simp at h

lemma unpadFinalize_finalized {ctx : PKCS7UnpaddingContext} (h : ctx.buffer = none) :
    ctx.finalize = .error .useAfterFinalize := by
  obtain ⟨b, buf⟩ := ctx
  cases buf with
  | none => rfl
  | some l => simp at h

lemma padFinalize_ok_none {ctx : PKCS7PaddingContext} {out : List Nat}
    {ctx' : PKCS7PaddingContext} (h : ctx.finalize = .ok (out, ctx')) :
    ctx'.buffer = none := by
  obtain ⟨b, buf⟩ := ctx
  cases buf with
  | none => simp [PKCS7PaddingContext.finalize] at h
  | some l =>
    rw [PKCS7PaddingContext.finalize] at h
    simp at h
    rw [← h.2]

lemma unpadFinalize_ok_none {ctx : PKCS7UnpaddingContext} {out : List Nat}
    {ctx' : PKCS7UnpaddingContext} (h : ctx.finalize = .ok (out, ctx')) :
    ctx'.buffer = none := by
  obtain ⟨b, buf⟩ := ctx
  cases buf with
  | none => simp [PKCS7UnpaddingContext.finalize] at h
  | some l =>
    simp only [PKCS7UnpaddingContext.finalize] at h
    split_ifs at h
    simp_all
    rw [← h.2]

/-! ## The claims -/

/-- C7: once `finalize` has succeeded on a padding or unpadding engine,
every further `update` call (with any argument) and every further
`finalize` call fails with the use-after-finalize error. -/
theorem use_after_finalize
    (pctx pctx' : PKCS7PaddingContext) (pout : List Nat)
    (uctx uctx' : PKCS7UnpaddingContext) (uout : List Nat)
    (hp : pctx.finalize = .ok (pout, pctx'))
    (hu : uctx.finalize = .ok (uout, uctx')) :
    (∀ data, pctx'.update data = .error .useAfterFinalize) ∧
    pctx'.finalize = .error .useAfterFinalize ∧
    (∀ data, uctx'.update data = .error .useAfterFinalize) ∧
    uctx'.finalize = .error .useAfterFinalize :=
  ⟨padUpdate_finalized (padFinalize_ok_none hp),
   padFinalize_finalized (padFinalize_ok_none hp),
   unpadUpdate_finalized (unpadFinalize_ok_none hu),
   unpadFinalize_finalized (unpadFinalize_ok_none hu)⟩

/-- C9: constructing the scheme with block size 0 succeeds (no
`InvalidParameter`), and a subsequent `update` on the resulting padder
or unpadder fails with Python's division-by-zero error, which is none
of the errors the spec's taxonomy names. -/
theorem zero_block_size_division (data : List Nat) :
    PKCS7.make 0 = .ok ⟨0⟩ ∧
    (PKCS7.padder ⟨0⟩).update data = .error .zeroDivision ∧
    (PKCS7.unpadder ⟨0⟩).update data = .error .zeroDivision ∧
    Err.zeroDivision ≠ Err.invalidParameter ∧
    Err.zeroDivision ≠ Err.useAfterFinalize ∧
    Err.zeroDivision ≠ Err.invalidPadding ∧
    Err.zeroDivision ≠ Err.encodingError :=
  ⟨by decide, rfl, rfl, by decide, by decide, by decide, by decide⟩

/-- C10: on a non-empty retained buffer whose final byte is 0, unpadding
`finalize` succeeds exactly when every byte of the buffer is 0, and on
success it returns the empty byte sequence (Python `buffer[-0:]` is the
whole buffer and `buffer[:-0]` is empty). -/
theorem unpad_finalize_zero_pad (bits : Nat) (buf : List Nat)
    (hne : buf ≠ []) (hz : buf.getD (buf.length - 1) 0 = 0) :
    (PKCS7UnpaddingContext.finalize ⟨bits, some buf⟩ =
        .ok (([] : List Nat), (⟨bits, none⟩ : PKCS7UnpaddingContext)) ↔
      ∀ b ∈ buf, b = 0) ∧
    (¬ (∀ b ∈ buf, b = 0) →
      PKCS7UnpaddingContext.finalize ⟨bits, some buf⟩ = .error .invalidPadding) := by
  rw [unpadFinalize_eval bits buf hne, hz]
  rw [if_neg (by omega : ¬ (0 : Nat) > bits / 8)]
  rw [pySliceFrom, if_pos rfl, pySliceTo, if_pos rfl]
  by_cases hall : ∀ b ∈ buf, b = 0
  · have hm : mismatchFold 0 buf = 0 := mismatchFold_eq_zero.2 hall
    rw [if_neg (by simpa using hm)]
    exact ⟨iff_of_true rfl hall, fun hc => absurd hall hc⟩
  · have hm : mismatchFold 0 buf ≠ 0 := fun h => hall (mismatchFold_eq_zero.1 h)
    rw [if_pos hm]
    exact ⟨iff_of_false (by simp) hall, fun hc => rfl⟩

/-- C4 counterexample: the unpadder that absorbed the two bytes `[1, 0]`
(block size 128 bits) is active with a non-empty retained buffer whose
final byte — the pad size the claim reads — is 0, which does not exceed
`block_size_bytes = 16`, and the last 0 bytes are (vacuously) all equal
to 0; the claim therefore predicts success with the buffer returned
unchanged, but `finalize` raises the invalid-padding error. -/
theorem unpad_finalize_pad_zero_cex :
    PKCS7UnpaddingContext.update (PKCS7.unpadder ⟨128⟩) [1, 0] =
      .ok ([], ⟨128, some [1, 0]⟩) ∧
    ([1, 0] : List Nat).getD 1 0 = 0 ∧
    PKCS7UnpaddingContext.finalize ⟨128, some [1, 0]⟩ = .error .invalidPadding ∧
    (Except.error .invalidPadding :
        Except Err (List Nat × PKCS7UnpaddingContext)) ≠
      .ok ([1, 0], ⟨128, none⟩) :=
  ⟨by decide, by decide, by decide, by decide⟩

/-- C4 (amended): on an active unpadding engine whose non-empty retained
buffer has a *nonzero* final byte, `finalize` reads `pad_size` from that
byte, fails with the invalid-padding error if `pad_size` exceeds
`block_size_bytes` or if any of the last `pad_size` bytes differs from
`pad_size`, and otherwise returns the buffer with the last `pad_size`
bytes removed.  (With a zero final byte the source behaves as in
`unpad_finalize_zero_pad` instead.) -/
theorem unpad_finalize_nonzero_pad (bits : Nat) (buf : List Nat)
    (hne : buf ≠ []) (hnz : buf.getD (buf.length - 1) 0 ≠ 0) :
    PKCS7UnpaddingContext.finalize ⟨bits, some buf⟩ =
      (if buf.getD (buf.length - 1) 0 > bits / 8 then .error .invalidPadding
       else if ∀ b ∈ buf.drop (buf.length - buf.getD (buf.length - 1) 0),
                b = buf.getD (buf.length - 1) 0 then
         .ok (buf.take (buf.length - buf.getD (buf.length - 1) 0), ⟨bits, none⟩)
       else .error .invalidPadding) := by
  rw [unpadFinalize_eval bits buf hne]
  rw [pySliceFrom, if_neg hnz, pySliceTo, if_neg hnz]
  by_cases hgt : buf.getD (buf.length - 1) 0 > bits / 8
  · rw [if_pos hgt, if_pos hgt]
  · rw [if_neg hgt, if_neg hgt]
    by_cases hall : ∀ b ∈ buf.drop (buf.length - buf.getD (buf.length - 1) 0),
        b = buf.getD (buf.length - 1) 0
    · rw [if_pos hall, if_neg (by simpa using mismatchFold_eq_zero.2 hall)]
    · rw [if_neg hall, if_pos (fun h => hall (mismatchFold_eq_zero.1 h))]

/-- C3 counterexample: a total input of one byte `0x01` (block size 128
bits, so shorter than one block) leaves the single byte in the retained
buffer, and unpadding `finalize` *succeeds* with the empty output
instead of failing with the invalid-padding error as the claim
predicts. -/
theorem unpad_short_input_cex :
    ([1] : List Nat).length < 128 / 8 ∧
    unpadRun 128 [[1]] = .ok [] ∧
    (Except.ok ([] : List Nat) : Except Err (List Nat)) ≠
      .error .invalidPadding :=
  ⟨by decide, by decide, by decide⟩

/-- C3 (amended): for a valid block size, unpadding `finalize` fails
with the invalid-padding error whenever the total input across all
`update` calls is *empty*; the retained buffer is empty exactly when
the total input is empty, so a non-empty input shorter than one block
leaves a non-empty buffer (and `finalize` may then succeed). -/
theorem unpad_empty_input_invalid (bits : Nat) (hv : ValidBits bits)
    (chunks : List (List Nat)) :
    (chunks.flatten = [] → unpadRun bits chunks = .error .invalidPadding) ∧
    ∃ out buf,
      unpadUpdates (PKCS7.unpadder ⟨bits⟩) chunks = .ok (out, ⟨bits, some buf⟩) ∧
      (buf = [] ↔ chunks.flatten = []) := by
  have hbs : bits / 8 ≠ 0 := by
    rcases hv with ⟨h1, h2, h3⟩; omega
  have h0 : ([] : List Nat).length < 2 * (bits / 8) := by
    simp
    have := Nat.pos_of_ne_zero hbs; omega
  have hsound := unpadUpdates_sound bits hbs chunks [] h0
  rw [List.nil_append] at hsound
  constructor
  · intro h
    rw [unpadRun, show PKCS7.unpadder ⟨bits⟩ = ⟨bits, some []⟩ from rfl,
        hsound, exceptBind_ok, h]
    simp [unpadEmit, unpadKeep, PKCS7UnpaddingContext.finalize, exceptBind_error]
  · refine ⟨unpadEmit (bits / 8) chunks.flatten, unpadKeep (bits / 8) chunks.flatten,
      by rw [show PKCS7.unpadder ⟨bits⟩ = ⟨bits, some []⟩ from rfl]; exact hsound, ?_⟩
    have hkl : (unpadKeep (bits / 8) chunks.flatten).length =
        uResid (bits / 8) chunks.flatten.length := by
      rw [unpadKeep, List.length_drop]
      have := @uResid_le (bits / 8) chunks.flatten.length
      omega
    rw [← List.length_eq_zero, hkl, ← List.length_eq_zero (l := chunks.flatten)]
    unfold uResid
    split
    · exact Iff.rfl
    · rename_i hge
      have h1 : chunks.flatten.length % (bits / 8) < bits / 8 :=
        Nat.mod_lt _ (Nat.pos_of_ne_zero hbs)
      omega

/-- C5: after any sequence of `update` calls on a fresh padder with a
valid block size, the retained buffer satisfies
`pad_size = block_size_bytes - len(buffer)` with
`1 ≤ pad_size ≤ block_size_bytes`, and `finalize` returns the buffer
followed by `pad_size` copies of the byte `pad_size`; when the total
input length is an exact multiple of the block size, `finalize` emits a
full extra block every byte of which equals `block_size_bytes`. -/
theorem padder_finalize_pads (bits : Nat) (hv : ValidBits bits)
    (chunks : List (List Nat)) :
    ∃ out buf,
      padUpdates (PKCS7.padder ⟨bits⟩) chunks = .ok (out, ⟨bits, some buf⟩) ∧
      1 ≤ bits / 8 - buf.length ∧ bits / 8 - buf.length ≤ bits / 8 ∧
      PKCS7PaddingContext.finalize ⟨bits, some buf⟩ =
        .ok (buf ++ List.replicate (bits / 8 - buf.length) (bits / 8 - buf.length),
             ⟨bits, none⟩) ∧
      ((bits / 8) ∣ chunks.flatten.length →
        PKCS7PaddingContext.finalize ⟨bits, some buf⟩ =
          .ok (List.replicate (bits / 8) (bits / 8), ⟨bits, none⟩)) := by
  have hbs : bits / 8 ≠ 0 := by
    rcases hv with ⟨h1, h2, h3⟩; omega
  have h0 : ([] : List Nat).length < bits / 8 := by
    simpa using Nat.pos_of_ne_zero hbs
  have hsound := padUpdates_sound bits hbs chunks [] h0
  rw [List.nil_append] at hsound
  have hmodlt : chunks.flatten.length % (bits / 8) < bits / 8 :=
    Nat.mod_lt _ (Nat.pos_of_ne_zero hbs)
  have hkl : (padKeep (bits / 8) chunks.flatten).length =
      chunks.flatten.length % (bits / 8) := by
    rw [padKeep, List.length_drop]
    have := Nat.mod_le chunks.flatten.length (bits / 8)
    omega
  refine ⟨padEmit (bits / 8) chunks.flatten, padKeep (bits / 8) chunks.flatten,
    by rw [show PKCS7.padder ⟨bits⟩ = ⟨bits, some []⟩ from rfl]; exact hsound,
    by rw [hkl]; omega, by rw [hkl]; omega, rfl, ?_⟩
  intro hdvd
  have hz : chunks.flatten.length % (bits / 8) = 0 := Nat.mod_eq_zero_of_dvd hdvd
  have hkeep0 : padKeep (bits / 8) chunks.flatten = [] := by
    rw [padKeep, hz, Nat.sub_zero, List.drop_length]
  rw [hkeep0]
  simp [PKCS7PaddingContext.finalize]

/-- C6: the concatenated output of the full padding pipeline, and of the
full unpadding pipeline, depends only on the concatenation of the
`update` arguments — any two chunkings of the same byte sequence
(per-byte, whole-input, or otherwise) give identical results. -/
theorem chunking_invariance (bits : Nat) (hv : ValidBits bits)
    (chunks₁ chunks₂ : List (List Nat)) (h : chunks₁.flatten = chunks₂.flatten) :
    padRun bits chunks₁ = padRun bits chunks₂ ∧
    unpadRun bits chunks₁ = unpadRun bits chunks₂ := by
  have hbs : bits / 8 ≠ 0 := by
    rcases hv with ⟨h1, h2, h3⟩; omega
  have h0 : ([] : List Nat).length < 2 * (bits / 8) := by
    simp
    have := Nat.pos_of_ne_zero hbs; omega
  constructor
  · rw [padRun_eq bits hbs, padRun_eq bits hbs, h]
  · rw [unpadRun, unpadRun, show PKCS7.unpadder ⟨bits⟩ = ⟨bits, some []⟩ from rfl,
        unpadUpdates_sound bits hbs chunks₁ [] h0,
        unpadUpdates_sound bits hbs chunks₂ [] h0, h]

/-- C8: the unpadder's `finalize` decides validity of the pad window by
the non-short-circuiting or-of-xor accumulation over the whole
`pad_size`-byte window, and the loop runs exactly one iteration per
window byte — a count that depends only on the window length, never on
where (or whether) a mismatching byte occurs. -/
theorem constant_time_pad_check (bits : Nat) (buf : List Nat) (hne : buf ≠ [])
    (hle : buf.getD (buf.length - 1) 0 ≤ bits / 8) :
    PKCS7UnpaddingContext.finalize ⟨bits, some buf⟩ =
      (if mismatchFold (buf.getD (buf.length - 1) 0)
           (pySliceFrom buf (buf.getD (buf.length - 1) 0)) ≠ 0 then
         .error .invalidPadding
       else .ok (pySliceTo buf (buf.getD (buf.length - 1) 0), ⟨bits, none⟩)) ∧
    (∀ p w, mismatchInstr p w = (mismatchFold p w, w.length)) ∧
    (∀ p₁ p₂ w₁ w₂, w₁.length = w₂.length →
      (mismatchInstr p₁ w₁).2 = (mismatchInstr p₂ w₂).2) := by
  refine ⟨?_, mismatchInstr_spec, ?_⟩
  · rw [unpadFinalize_eval bits buf hne, if_neg (by omega)]
  · intro p₁ p₂ w₁ w₂ h
    rw [mismatchInstr_spec, mismatchInstr_spec, h]

/-- C1: for every byte sequence and valid block size, padding the
sequence through any sequence of `update` calls plus `finalize`, then
unpadding the concatenated result through any sequence of `update`
calls plus `finalize`, returns exactly the original sequence. -/
theorem round_trip (bits : Nat) (hv : ValidBits bits)
    (chunks₁ chunks₂ : List (List Nat)) (pd : List Nat)
    (h1 : padRun bits chunks₁ = .ok pd) (h2 : chunks₂.flatten = pd) :
    unpadRun bits chunks₂ = .ok chunks₁.flatten := by
  have hbs : bits / 8 ≠ 0 := by
    rcases hv with ⟨a, b, c⟩; omega
  rw [padRun_eq bits hbs chunks₁] at h1
  injection h1 with h1
  subst h1
  set m := chunks₁.flatten with hm
  set bs := bits / 8 with hbsdef
  set p := bs - m.length % bs with hp
  have hmodlt : m.length % bs < bs := Nat.mod_lt _ (Nat.pos_of_ne_zero hbs)
  have hp1 : 1 ≤ p := by omega
  have hple : p ≤ bs := by omega
  set T := m ++ List.replicate p p with hT
  have hlen : T.length = m.length + p := by
    rw [hT]; simp
  have hpl := @padded_len_mod bs m.length hbs
  have hmod : T.length % bs = 0 := by
    rw [hlen, hp]; exact hpl.1
  have hge : bs ≤ T.length := by
    rw [hlen, hp]; exact hpl.2
  rw [unpadRun_full bits hbs chunks₂ T h2 hmod hge]
  have hkeeplen : (T.drop (T.length - bs)).length = bs := by
    rw [List.length_drop]; omega
  have hkeepne : T.drop (T.length - bs) ≠ [] :=
    List.length_pos.mp (by rw [hkeeplen]; exact Nat.pos_of_ne_zero hbs)
  have hlast : (T.drop (T.length - bs)).getD (bs - 1) 0 = p := by
    rw [getD_drop]
    have he : T.length - bs + (bs - 1) = m.length + (p - 1) := by omega
    rw [he, hT]
    exact getD_pad (by omega)
  rw [unpadFinalize_eval _ _ hkeepne, ← hbsdef, hkeeplen, hlast,
      if_neg (by omega : ¬ p > bs)]
  rw [pySliceFrom, if_neg (by omega : ¬ p = 0), hkeeplen]
  have hwin : (T.drop (T.length - bs)).drop (bs - p) = List.replicate p p := by
    rw [List.drop_drop]
    have he2 : T.length - bs + (bs - p) = m.length := by omega
    rw [he2, hT]
    exact List.drop_left m (List.replicate p p)
  rw [hwin]
  have hmz : mismatchFold p (List.replicate p p) = 0 :=
    mismatchFold_eq_zero.2 (fun b hb => List.eq_of_mem_replicate hb)
  rw [if_neg (by simpa using hmz), exceptBind_ok]
  rw [pySliceTo, if_neg (by omega : ¬ p = 0), hkeeplen]
  have hfinal : T.take (T.length - bs) ++ (T.drop (T.length - bs)).take (bs - p) = m := by
    rw [← List.take_add]
    have he3 : T.length - bs + (bs - p) = m.length := by omega
    rw [he3, hT]
    exact List.take_left' rfl
  exact congrArg Except.ok hfinal

lemma getD_set_ne {l : List Nat} {i j v : Nat} (h : i ≠ j) :
    (l.set i v).getD j 0 = l.getD j 0 := by
  rw [List.getD_eq_getElem?_getD, List.getD_eq_getElem?_getD, List.getElem?_set_ne h]

/-- C2 counterexample: block size 64 bits, message of five `0x00` bytes.
Its valid padded encoding is `00 00 00 00 00 03 03 03` (pad size 3).
Flipping bit 1 of the final byte — a bit within the final `pad_size`
bytes — gives `… 03 03 01`, which the unpadder accepts as a valid
1-byte pad: `finalize` succeeds (returning `00 00 00 00 00 03 03`)
instead of failing with the invalid-padding error. -/
theorem tamper_detection_cex :
    padRun 64 [[0, 0, 0, 0, 0]] = .ok [0, 0, 0, 0, 0, 3, 3, 3] ∧
    flipBit [0, 0, 0, 0, 0, 3, 3, 3] 7 1 = [0, 0, 0, 0, 0, 3, 3, 1] ∧
    unpadRun 64 [[0, 0, 0, 0, 0, 3, 3, 1]] = .ok [0, 0, 0, 0, 0, 3, 3] ∧
    (Except.ok ([0, 0, 0, 0, 0, 3, 3] : List Nat) : Except Err (List Nat)) ≠
      .error .invalidPadding :=
  ⟨by decide, by decide, by decide, by decide⟩

/-- C2 (amended): flipping any bit of any byte within the final
`pad_size` bytes of a validly padded message *other than the final byte
itself* causes unpadding `finalize` to fail with the invalid-padding
error.  (A flip of the final byte can instead produce a different valid
padding, as `tamper_detection_cex` shows.) -/
theorem tamper_detection_non_final (bits : Nat) (hv : ValidBits bits)
    (m : List Nat) (i k : Nat) (_hk : k < 8)
    (hi1 : m.length ≤ i)
    (hi2 : i + 1 < m.length + (bits / 8 - m.length % (bits / 8)))
    (pd : List Nat) (hpd : padRun bits [m] = .ok pd) :
    unpadRun bits [flipBit pd i k] = .error .invalidPadding := by
  have hbs : bits / 8 ≠ 0 := by
    rcases hv with ⟨a, b, c⟩; omega
  rw [padRun_eq bits hbs [m]] at hpd
  injection hpd with hpd
  subst hpd
  have hfl : ([m] : List (List Nat)).flatten = m := by simp
  rw [hfl]
  set bs := bits / 8 with hbsdef
  set p := bs - m.length % bs with hp
  have hmodlt : m.length % bs < bs := Nat.mod_lt _ (Nat.pos_of_ne_zero hbs)
  have hp1 : 1 ≤ p := by omega
  have hple : p ≤ bs := by omega
  set T := m ++ List.replicate p p with hT
  have hlen : T.length = m.length + p := by
    rw [hT]; simp
  have hgetTi : T.getD i 0 = p := by
    have hi' : i = m.length + (i - m.length) := by omega
    rw [hT, hi']
    exact getD_pad (by omega)
  have hflip : flipBit T i k = T.set i (p ^^^ 2 ^ k) := by
    rw [flipBit, hgetTi]
  have h2k : (2 : Nat) ^ k ≠ 0 := by positivity
  have hne_p : p ^^^ 2 ^ k ≠ p := by
    intro h
    have hxx : p ^^^ (p ^^^ 2 ^ k) = p ^^^ p := by rw [h]
    rw [← Nat.xor_assoc, Nat.xor_self, Nat.zero_xor] at hxx
    exact h2k hxx
  have hfl2 : ([flipBit T i k] : List (List Nat)).flatten = T.set i (p ^^^ 2 ^ k) := by
    simp [hflip]
  have hlenset : (T.set i (p ^^^ 2 ^ k)).length = T.length := List.length_set ..
  have hpl := @padded_len_mod bs m.length hbs
  have hmod2 : (T.set i (p ^^^ 2 ^ k)).length % bs = 0 := by
    rw [hlenset, hlen, hp]; exact hpl.1
  have hge2 : bs ≤ (T.set i (p ^^^ 2 ^ k)).length := by
    rw [hlenset, hlen, hp]; exact hpl.2
  rw [unpadRun_full bits hbs [flipBit T i k] _ hfl2 hmod2 hge2]
  set S := T.set i (p ^^^ 2 ^ k) with hS
  have hkeeplen : (S.drop (S.length - bs)).length = bs := by
    rw [List.length_drop, hlenset]; omega
  have hkeepne : S.drop (S.length - bs) ≠ [] :=
    List.length_pos.mp (by rw [hkeeplen]; exact Nat.pos_of_ne_zero hbs)
  have hlast : (S.drop (S.length - bs)).getD (bs - 1) 0 = p := by
    rw [getD_drop]
    have he : S.length - bs + (bs - 1) = S.length - 1 := by
      rw [hlenset, hlen]; omega
    rw [he]
    have hne_i : i ≠ S.length - 1 := by
      rw [hlenset, hlen]; omega
    rw [hS, getD_set_ne hne_i, hlenset, hlen]
    have he2 : m.length + p - 1 = m.length + (p - 1) := by omega
    rw [he2, hT]
    exact getD_pad (by omega)
  rw [unpadFinalize_eval _ _ hkeepne, ← hbsdef, hkeeplen, hlast,
      if_neg (by omega : ¬ p > bs)]
  rw [pySliceFrom, if_neg (by omega : ¬ p = 0), hkeeplen]
  have hwin : (S.drop (S.length - bs)).drop (bs - p) = S.drop m.length := by
    rw [List.drop_drop]
    have he3 : S.length - bs + (bs - p) = m.length := by
      rw [hlenset, hlen]; omega
    rw [he3]
  rw [hwin]
  have hjlt : i - m.length < (S.drop m.length).length := by
    rw [List.length_drop, hlenset, hlen]; omega
  have hwget : (S.drop m.length).getD (i - m.length) 0 = p ^^^ 2 ^ k := by
    rw [getD_drop]
    have he4 : m.length + (i - m.length) = i := by omega
    have hiS : i < (T.set i (p ^^^ 2 ^ k)).length := by
      rw [← hS, hlenset, hlen]; omega
    rw [he4, hS, List.getD_eq_getElem _ _ hiS]
    exact List.getElem_set_self _
  have hmm : mismatchFold p (S.drop m.length) ≠ 0 := by
    intro h0
    have hall := mismatchFold_eq_zero.1 h0
    have hmem : (S.drop m.length).getD (i - m.length) 0 ∈ S.drop m.length := by
      rw [List.getD_eq_getElem _ _ hjlt]
      exact List.getElem_mem _
    exact hne_p ((hwget.symm).trans (hall _ hmem))
  rw [if_pos hmm]
  rfl

/-! ## Witnesses -/

theorem round_trip_witness :
    unpadRun 64 [[10, 20], [30, 5, 5], [5, 5, 5]] = .ok [10, 20, 30] := by
  have h := round_trip 64 (by decide) [[10, 20, 30]] [[10, 20], [30, 5, 5], [5, 5, 5]]
    [10, 20, 30, 5, 5, 5, 5, 5] (by decide) (by decide)
  simpa using h

theorem tamper_detection_non_final_witness :
    unpadRun 64 [flipBit [9, 9, 9, 9, 9, 3, 3, 3] 5 0] = .error .invalidPadding :=
  tamper_detection_non_final 64 (by decide) [9, 9, 9, 9, 9] 5 0 (by decide)
    (by decide) (by decide) [9, 9, 9, 9, 9, 3, 3, 3] (by decide)

theorem unpad_empty_input_invalid_witness :
    unpadRun 128 [[], []] = .error .invalidPadding := by
  have h := unpad_empty_input_invalid 128 (by decide) [[], []]
  exact h.1 (by decide)

theorem unpad_finalize_nonzero_pad_witness :
    PKCS7UnpaddingContext.finalize ⟨128, some [7, 7, 2, 2]⟩ =
      .ok ([7, 7], ⟨128, none⟩) := by
  have h := unpad_finalize_nonzero_pad 128 [7, 7, 2, 2] (by decide) (by decide)
  rw [h]
  decide

theorem padder_finalize_pads_witness :
    PKCS7PaddingContext.finalize ⟨64, some [1, 2, 3]⟩ =
      .ok ([1, 2, 3, 5, 5, 5, 5, 5], ⟨64, none⟩) := by
  obtain ⟨out, buf, h1, h2, h3, h4, h5⟩ := padder_finalize_pads 64 (by decide) [[1, 2, 3]]
  have hb : padUpdates (PKCS7.padder ⟨64⟩) [[1, 2, 3]] =
      .ok ([], ⟨64, some [1, 2, 3]⟩) := by decide
  have hcmp := hb.symm.trans h1
  simp only [Except.ok.injEq, Prod.mk.injEq, PKCS7PaddingContext.mk.injEq,
    Option.some.injEq, true_and] at hcmp
  obtain ⟨-, hbuf⟩ := hcmp
  subst hbuf
  rw [h4]
  decide

theorem chunking_invariance_witness :
    (padRun 64 [[1], [2, 3]] = padRun 64 [[1, 2, 3]] ∧
     unpadRun 64 [[1], [2, 3]] = unpadRun 64 [[1, 2, 3]]) :=
  chunking_invariance 64 (by decide) [[1], [2, 3]] [[1, 2, 3]] (by decide)

theorem use_after_finalize_witness :
    PKCS7PaddingContext.update (⟨64, none⟩ : PKCS7PaddingContext) [42] =
      .error .useAfterFinalize ∧
    PKCS7PaddingContext.finalize (⟨64, none⟩ : PKCS7PaddingContext) =
      .error .useAfterFinalize ∧
    PKCS7UnpaddingContext.update (⟨64, none⟩ : PKCS7UnpaddingContext) [42] =
      .error .useAfterFinalize ∧
    PKCS7UnpaddingContext.finalize (⟨64, none⟩ : PKCS7UnpaddingContext) =
      .error .useAfterFinalize := by
  have h := use_after_finalize ⟨64, some [1]⟩ ⟨64, none⟩ [1, 7, 7, 7, 7, 7, 7, 7]
    ⟨64, some [8, 8, 8, 8, 8, 8, 8, 8]⟩ ⟨64, none⟩ [] (by decide) (by decide)
  exact ⟨h.1 [42], h.2.1, h.2.2.1 [42], h.2.2.2⟩

theorem constant_time_pad_check_witness :
    PKCS7UnpaddingContext.finalize ⟨64, some [9, 9, 2, 2]⟩ =
      .ok ([9, 9], ⟨64, none⟩) ∧
    mismatchInstr 3 [3, 3, 3] = (0, 3) ∧
    (mismatchInstr 3 [9, 9, 9]).2 = (mismatchInstr 7 [7, 7, 7]).2 := by
  have h := constant_time_pad_check 64 [9, 9, 2, 2] (by decide) (by decide)
  refine ⟨?_, ?_, ?_⟩
  · rw [h.1]; decide
  · rw [h.2.1 3 [3, 3, 3]]; decide
  · exact h.2.2 3 7 [9, 9, 9] [7, 7, 7] (by decide)

theorem unpad_finalize_zero_pad_witness :
    PKCS7UnpaddingContext.finalize ⟨128, some [0, 0, 0]⟩ =
      .ok ([], ⟨128, none⟩) ∧
    PKCS7UnpaddingContext.finalize ⟨128, some [1, 0]⟩ = .error .invalidPadding := by
  constructor
  · exact (unpad_finalize_zero_pad 128 [0, 0, 0] (by decide) (by decide)).1.mpr (by decide)
  · exact (unpad_finalize_zero_pad 128 [1, 0] (by decide) (by decide)).2 (by decide)
